import Mathlib

/-!
Verification of the `commandline` line editor.

A shallow embedding of `src/src/helper/ansi.cpp` (the ANSI escape stripper) and of
`src/commandline.cpp` (edit buffer, history store, input loop), followed by the
theorems that settle the specification's claims against that code.

Bytes (`char`) are natural numbers; a `std::string` is a list of bytes. Operations whose
C++ behaviour is undefined or throwing (`vector::erase(begin())` on an empty vector,
`vector::at` out of range, `queue::front` on an empty queue) return `none`.
-/

namespace ansi

/-- One `char` of a `std::string`. -/
abbrev Byte := Nat

/-- A `std::string`, as the list of its bytes. -/
abbrev Str := List Byte

/-- The scanner state, `enum class State` of `ansi.cpp`. -/
inductive State where
  | Normal
  | Escaped
  deriving DecidableEq, Repr

/-- The `case` labels of the `switch` in `remove_ansi_escape_codes`:
`A B C D E F G H J K T f m`. -/
def is_terminator (c : Byte) : Bool :=
  c == 65 || c == 66 || c == 67 || c == 68 || c == 69 || c == 70 || c == 71 ||
  c == 72 || c == 74 || c == 75 || c == 84 || c == 102 || c == 109

/-- The `for` loop of `remove_ansi_escape_codes`: `state` and `new_str` are the loop's
two variables, the list is `original[i..]`. -/
def scan : State → Str → Str → Str
  | _, new_str, [] => new_str
  | state, new_str, c :: rest =>
    if state = State.Normal ∧ c = 0x1b then
      scan State.Escaped new_str rest
    else if state = State.Escaped ∧ is_terminator c = true then
      scan State.Normal new_str rest
    else if state = State.Normal then
      scan state (new_str ++ [c]) rest
    else
      scan state new_str rest

/-- The function `ansi::remove_ansi_escape_codes`. -/
def remove_ansi_escape_codes (original : Str) : Str :=
  scan State.Normal [] original

end ansi

open ansi (Byte Str)

/-- The members of `class Commandline` that `commandline.cpp` reads and writes. The class
declaration is not among the sources, so the members carry no initial values here: a state
is any value of this record. `m_cursor_pos` is an integer, `m_history_index` and
`m_history_limit` are `size_t`; `m_history_enabled` is what `history_enabled()` returns;
`term` collects the bytes sent to the terminal by `putchar` and `printf`. -/
structure Commandline where
  m_current_buffer : Str
  m_cursor_pos : Int
  m_history_temp_buffer : Str
  m_history : List Str
  m_history_index : Nat
  m_history_limit : Nat
  m_history_enabled : Bool
  m_to_read : List Str
  m_to_write : List Str
  term : Str
  deriving DecidableEq, Repr

namespace Commandline

/-- A freshly constructed object: empty buffers, queues and history, cursor and history
index zero. The history limit and the history switch are set in the class declaration,
which is not among the sources, so they are parameters. -/
def fresh (limit : Nat) (enabled : Bool) : Commandline :=
  { m_current_buffer := [], m_cursor_pos := 0, m_history_temp_buffer := [],
    m_history := [], m_history_index := 0, m_history_limit := limit,
    m_history_enabled := enabled, m_to_read := [], m_to_write := [], term := [] }

/-- The accessor `history_enabled()`. -/
def history_enabled (cl : Commandline) : Bool := cl.m_history_enabled

/-- The library function `isprint` in the C locale: the bytes `0x20 .. 0x7E`. -/
def isprint (c : Byte) : Bool := decide (32 ≤ c ∧ c ≤ 126)

/-- What `printf("%s", s.c_str())` prints: the bytes of `s` before its first NUL. -/
def c_str (s : Str) : Str := s.takeWhile (fun c => c != 0)

/-- The control sequence `"\x1b[2K\x1b[1000D"`: clear the line, go to column 0. -/
def clear_line : Str := [0x1b, 91, 50, 75, 0x1b, 91, 49, 48, 48, 48, 68]

/-- The function `Commandline::add_to_current_buffer`. -/
def add_to_current_buffer (cl : Commandline) (c : Byte) : Commandline :=
  { cl with
    m_current_buffer := cl.m_current_buffer ++ [c]
    m_cursor_pos := cl.m_cursor_pos + 1
    term := cl.term ++ [c]
    m_history_temp_buffer := cl.m_current_buffer ++ [c] }

/-- The function `Commandline::update_current_buffer_view`. -/
def update_current_buffer_view (cl : Commandline) : Commandline :=
  { cl with term := cl.term ++ clear_line ++ c_str cl.m_current_buffer }

/-- The function `Commandline::go_back_in_history`. -/
def go_back_in_history (cl : Commandline) : Commandline :=
  if cl.m_history_index = 0 then cl
  else { cl with m_history_index := cl.m_history_index - 1 }

/-- The function `Commandline::go_forward_in_history`. -/
def go_forward_in_history (cl : Commandline) : Commandline :=
  if cl.m_history_index = cl.m_history.length then cl
  else { cl with m_history_index := cl.m_history_index + 1 }

/-- The block shared by both arrow branches of `handle_escape_sequence` (lines 86-92 and
95-101): load the temp buffer or `m_history.at(m_history_index)` into the edit buffer and
redraw. `at` throws when the index is out of range: `none`. -/
def show_history_entry (cl : Commandline) : Option Commandline :=
  if cl.m_history_index = cl.m_history.length then
    some (update_current_buffer_view { cl with m_current_buffer := cl.m_history_temp_buffer })
  else
    match cl.m_history[cl.m_history_index]? with
    | some entry => some (update_current_buffer_view { cl with m_current_buffer := entry })
    | none => none

/-- The function `Commandline::handle_escape_sequence`; `c2` and `c3` are the two bytes it
reads with `getchar_no_echo`. -/
def handle_escape_sequence (cl : Commandline) (c2 c3 : Byte) : Option Commandline :=
  if c2 = 91 ∧ history_enabled cl = true then
    if c3 = 65 ∧ ¬ cl.m_history = [] then
      show_history_entry (go_back_in_history cl)
    else if c3 = 66 ∧ ¬ cl.m_history = [] then
      show_history_entry (go_forward_in_history cl)
    else
      some cl
  else
    some (add_to_current_buffer (add_to_current_buffer cl c2) c3)

/-- The function `Commandline::handle_backspace`. -/
def handle_backspace (cl : Commandline) : Commandline :=
  if ¬ cl.m_current_buffer = [] then
    update_current_buffer_view
      { cl with
        m_cursor_pos := cl.m_cursor_pos - 1
        m_current_buffer := cl.m_current_buffer.dropLast }
  else cl

/-- The call `m_history.erase(m_history.begin())`: undefined on an empty vector. -/
def erase_begin (v : List Str) : Option (List Str) :=
  match v with
  | [] => none
  | _ :: rest => some rest

/-- The function `Commandline::add_to_history`. -/
def add_to_history (cl : Commandline) (str : Str) : Option Commandline :=
  (if cl.m_history.length + 1 > cl.m_history_limit then erase_begin cl.m_history
   else some cl.m_history).map fun hist =>
    { cl with
      m_history := hist ++ [str]
      m_history_index := (hist ++ [str]).length
      m_history_temp_buffer := [] }

/-- Lines 132-140 of `input_thread_main`: what the outer loop does once the inner loop has
read `'\n'`. -/
def submit (cl : Commandline) : Option Commandline :=
  (if history_enabled cl = true then add_to_history cl cl.m_current_buffer
   else some cl).map fun cl1 =>
    { cl1 with
      m_to_read := cl1.m_to_read ++ [cl1.m_current_buffer]
      m_current_buffer := []
      m_cursor_pos := 0 }

/-- The function `Commandline::input_thread_main`, run on the bytes that
`getchar_no_echo` delivers before shutdown. When the bytes run out the thread is parked
in the blocking read and is cancelled there, so the state it has reached is the result;
an ESC followed by fewer than two bytes is parked inside `handle_escape_sequence`, which
has changed nothing yet. -/
def input_thread_main : Commandline → List Byte → Option Commandline
  | cl, [] => some cl
  | cl, c :: rest =>
    if c = 8 ∨ c = 127 then
      input_thread_main (handle_backspace cl) rest
    else if isprint c = true then
      input_thread_main (add_to_current_buffer cl c) rest
    else if c = 0x1b then
      match rest with
      | c2 :: c3 :: rest2 =>
        match handle_escape_sequence cl c2 c3 with
        | some cl1 => input_thread_main cl1 rest2
        | none => none
      | _ => some cl
    else if c = 10 then
      match submit cl with
      | some cl1 => input_thread_main cl1 rest
      | none => none
    else
      input_thread_main cl rest

/-- The function `Commandline::write`. -/
def write (cl : Commandline) (str : Str) : Commandline :=
  { cl with m_to_write := cl.m_to_write ++ [str] }

/-- The function `Commandline::has_command`. -/
def has_command (cl : Commandline) : Bool := !cl.m_to_read.isEmpty

/-- The function `Commandline::get_command`: `front()` on an empty queue is undefined. -/
def get_command (cl : Commandline) : Option (Str × Commandline) :=
  match cl.m_to_read with
  | [] => none
  | res :: rest => some (res, { cl with m_to_read := rest })

/-- The function `Commandline::set_history_limit`. -/
def set_history_limit (cl : Commandline) (count : Nat) : Commandline :=
  { cl with m_history_limit := count }

/-- The function `Commandline::history_size`. -/
def history_size (cl : Commandline) : Nat := cl.m_history.length

/-- The function `Commandline::clear_history`. -/
def clear_history (cl : Commandline) : Commandline :=
  { cl with m_history := [] }

/-- The bytes a user types to submit the lines `ls`: each line followed by `'\n'`. -/
def type_lines : List Str → List Byte
  | [] => []
  | l :: ls => l ++ 10 :: type_lines ls

/-- The consumer's `n` successive calls of `get_command`, with the strings they return. -/
def get_commands : Nat → Commandline → Option (List Str × Commandline)
  | 0, cl => some ([], cl)
  | n + 1, cl =>
    match get_command cl with
    | none => none
    | some (res, cl1) =>
      match get_commands n cl1 with
      | none => none
      | some (rs, cl2) => some (res :: rs, cl2)

/-- Lines 148-158 of `io_thread_main`: one pass of the output loop after its sleep. With
an empty write queue nothing happens; otherwise the front item is popped and printed
after the clear-line sequence, followed by a newline and the current edit buffer. The
second component is what this pass printed. -/
def io_thread_pass (cl : Commandline) : Commandline × Str :=
  match cl.m_to_write with
  | [] => (cl, [])
  | to_write :: rest =>
    ({ cl with
       m_to_write := rest
       term := cl.term ++ (clear_line ++ c_str to_write ++ [10] ++ c_str cl.m_current_buffer) },
     clear_line ++ c_str to_write ++ [10] ++ c_str cl.m_current_buffer)

/-- Lines 170-174 of `io_thread_main`: after shutdown every remaining item is popped and
printed after the clear-line sequence, followed by a newline. -/
def drain_output : List Str → Str
  | [] => []
  | to_write :: rest => clear_line ++ c_str to_write ++ [10] ++ drain_output rest

/-- What happens around the output loop until shutdown: the application calls `write`,
the loop makes a pass, or the input loop changes the edit buffer. -/
inductive IoEvent where
  | write (str : Str)
  | pass
  | edit (buffer : Str)
  deriving DecidableEq, Repr

/-- The strings passed to `write`, in call order. -/
def writes : List IoEvent → List Str
  | [] => []
  | IoEvent.write str :: evs => str :: writes evs
  | _ :: evs => writes evs

/-- The function `Commandline::io_thread_main`: the bytes the output thread prints while
the events `evs` happen, shutdown at their end and the final drain included. -/
def io_thread_main : Commandline → List IoEvent → Str
  | cl, [] => drain_output cl.m_to_write
  | cl, IoEvent.write str :: evs => io_thread_main (write cl str) evs
  | cl, IoEvent.edit buffer :: evs => io_thread_main { cl with m_current_buffer := buffer } evs
  | cl, IoEvent.pass :: evs => (io_thread_pass cl).2 ++ io_thread_main (io_thread_pass cl).1 evs

/-- The redraw protocol as the specification words it: each item preceded by the
clear-line sequence and followed by a newline, item `i` then followed by the text `rs[i]`
(the re-rendered edit buffer, empty in the final drain). -/
def rendered : List Str → List Str → Str
  | w :: ws, r :: rs => clear_line ++ w ++ [10] ++ r ++ rendered ws rs
  | _, _ => []

/-- One call of `printf` by the output thread: an item of the write queue (lines 154 and
173, `printf("\x1b[2K\x1b[1000D%s\n", to_write.c_str())`) or the re-rendered edit buffer
(line 156, `printf("%s", m_current_buffer.c_str())`), with the string passed to it. -/
inductive Printed where
  | item (to_write : Str)
  | buffer (content : Str)
  deriving DecidableEq, Repr

/-- The bytes that a sequence of `printf` calls sends to the terminal. -/
def printed_bytes : List Printed → Str
  | [] => []
  | Printed.item to_write :: rest => clear_line ++ c_str to_write ++ [10] ++ printed_bytes rest
  | Printed.buffer content :: rest => c_str content ++ printed_bytes rest

/-- The queue items among a sequence of `printf` calls, in call order. -/
def printed_items : List Printed → List Str
  | [] => []
  | Printed.item to_write :: rest => to_write :: printed_items rest
  | Printed.buffer _ :: rest => printed_items rest

/-- The re-rendered edit buffers among a sequence of `printf` calls, in call order. -/
def printed_buffers : List Printed → List Str
  | [] => []
  | Printed.item _ :: rest => printed_buffers rest
  | Printed.buffer content :: rest => content :: printed_buffers rest

/-- The `printf` calls of one pass of the output loop (lines 152-156). -/
def io_pass_calls (cl : Commandline) : List Printed :=
  match cl.m_to_write with
  | [] => []
  | to_write :: _ => [Printed.item to_write, Printed.buffer cl.m_current_buffer]

/-- The `printf` calls of `Commandline::io_thread_main`, call by call, while the events
`evs` happen, shutdown at their end and the final drain (lines 170-174) included. -/
def io_thread_calls : Commandline → List IoEvent → List Printed
  | cl, [] => cl.m_to_write.map Printed.item
  | cl, IoEvent.write str :: evs => io_thread_calls (write cl str) evs
  | cl, IoEvent.edit buffer :: evs => io_thread_calls { cl with m_current_buffer := buffer } evs
  | cl, IoEvent.pass :: evs => io_pass_calls cl ++ io_thread_calls (io_thread_pass cl).1 evs

/-- The contents given to the edit buffer by the input loop, in order. -/
def edits : List IoEvent → List Str
  | [] => []
  | IoEvent.edit buffer :: evs => buffer :: edits evs
  | _ :: evs => edits evs

/-- The four `std::mutex` members that `commandline.cpp` locks. -/
inductive Mutex where
  | m_current_buffer_mutex
  | m_history_mutex
  | m_to_read_mutex
  | m_to_write_mutex
  deriving DecidableEq, Repr

/-- What a thread does, as far as locking and the edit buffer go: a `std::lock_guard` is
constructed, it is destroyed at the end of its scope, or `m_current_buffer` (with
`m_cursor_pos`) is read or written. -/
inductive Action where
  | lock (m : Mutex)
  | unlock (m : Mutex)
  | read_buffer
  | write_buffer
  deriving DecidableEq, Repr

/-- Lines 121-129 of `input_thread_main` for a printable byte: the guard of line 122, then
`add_to_current_buffer` (lines 69-72), the guard released at the end of the loop body. -/
def append_actions : List Action :=
  [Action.lock Mutex.m_current_buffer_mutex, Action.write_buffer, Action.read_buffer,
   Action.unlock Mutex.m_current_buffer_mutex]

/-- Lines 121-129 for ESC `[` `A`: the guard of line 122, `go_back_in_history` with its own
guard (line 191), the guard of line 86, the assignment to `m_current_buffer` and the
redraw that reads it (lines 87-92). -/
def arrow_actions : List Action :=
  [Action.lock Mutex.m_current_buffer_mutex,
   Action.lock Mutex.m_history_mutex, Action.unlock Mutex.m_history_mutex,
   Action.lock Mutex.m_history_mutex, Action.write_buffer, Action.read_buffer,
   Action.unlock Mutex.m_history_mutex,
   Action.unlock Mutex.m_current_buffer_mutex]

/-- Lines 132-140 of `input_thread_main` with history enabled; the guard of line 122 has
gone out of scope with the inner loop body. `add_to_history` takes `m_current_buffer` by
reference and copies it under the history guard (lines 179-185); then the guard of line
136, the copy into the queue (137), `clear` (138) and the cursor reset (139). -/
def submit_actions : List Action :=
  [Action.lock Mutex.m_history_mutex, Action.read_buffer, Action.unlock Mutex.m_history_mutex,
   Action.lock Mutex.m_to_read_mutex, Action.read_buffer, Action.write_buffer,
   Action.write_buffer, Action.unlock Mutex.m_to_read_mutex]

/-- Lines 148-158 of `io_thread_main` with a pending item: the guard of line 148, the guard
of line 155, the `printf` of the edit buffer (156), both released at the end of the pass. -/
def io_pass_actions : List Action :=
  [Action.lock Mutex.m_to_write_mutex, Action.lock Mutex.m_current_buffer_mutex,
   Action.read_buffer, Action.unlock Mutex.m_current_buffer_mutex,
   Action.unlock Mutex.m_to_write_mutex]

/-- Whether every access to the edit buffer in `acts` is made with
`m_current_buffer_mutex` among the locks `held`. -/
def buffer_guarded : List Mutex → List Action → Bool
  | _, [] => true
  | held, Action.lock m :: rest => buffer_guarded (m :: held) rest
  | held, Action.unlock m :: rest => buffer_guarded (held.erase m) rest
  | held, Action.read_buffer :: rest =>
    decide (Mutex.m_current_buffer_mutex ∈ held) && buffer_guarded held rest
  | held, Action.write_buffer :: rest =>
    decide (Mutex.m_current_buffer_mutex ∈ held) && buffer_guarded held rest

/-- The input thread and the output thread side by side: what each has left to do and the
locks each holds. -/
structure Threads where
  input : List Action
  io : List Action
  input_held : List Mutex
  io_held : List Mutex
  deriving DecidableEq, Repr

/-- One step of a thread holding `own` while the other thread holds `other`: `none` when
it has nothing left or waits for a mutex. -/
def thread_step (own other : List Mutex) : List Action → Option (List Mutex × List Action)
  | [] => none
  | Action.lock m :: rest => if m ∈ other ∨ m ∈ own then none else some (m :: own, rest)
  | Action.unlock m :: rest => some (own.erase m, rest)
  | Action.read_buffer :: rest => some (own, rest)
  | Action.write_buffer :: rest => some (own, rest)

/-- Run the two threads under a schedule: `true` lets the input thread take a step,
`false` the output thread. -/
def interleave : Threads → List Bool → Option Threads
  | t, [] => some t
  | t, true :: sched =>
    match thread_step t.input_held t.io_held t.input with
    | some (held, rest) => interleave { t with input := rest, input_held := held } sched
    | none => none
  | t, false :: sched =>
    match thread_step t.io_held t.input_held t.io with
    | some (held, rest) => interleave { t with io := rest, io_held := held } sched
    | none => none

/-- Modelled from the spec: the facade operation `enable_history()`, whose body is in the
class declaration that is not among the sources; it makes `history_enabled()` true. -/
def enable_history (cl : Commandline) : Commandline :=
  { cl with m_history_enabled := true }

/-- Modelled from the spec: the facade operation `disable_history()`, whose body is in the
class declaration that is not among the sources; it makes `history_enabled()` false. -/
def disable_history (cl : Commandline) : Commandline :=
  { cl with m_history_enabled := false }

/-- Where the input thread stands between two of its atomic steps. It is parked in
`getchar_no_echo` in the inner loop (line 121), or in `handle_escape_sequence` before `c2`
(line 81) or before `c3` (line 82); or it has passed the unlocked tests of line 84
(`arrow_up`) or line 93 (`arrow_down`) and is about to call `go_back_in_history` or
`go_forward_in_history`; or that call has returned, releasing `m_history_mutex`, and the
guard of line 86 or 95 is not taken yet (`lookup`). -/
inductive Pending where
  | reading
  | escape
  | escape2 (c2 : Byte)
  | arrow_up
  | arrow_down
  | lookup
  deriving DecidableEq, Repr

/-- The body of the inner loop of `input_thread_main` for the byte `c` read at line 121,
with the submit of lines 132-140 after `'\n'`; after ESC the thread is parked in the first
read of `handle_escape_sequence`. -/
def inner_loop_byte (cl : Commandline) (c : Byte) : Option (Pending × Commandline) :=
  if c = 8 ∨ c = 127 then some (Pending.reading, handle_backspace cl)
  else if isprint c = true then some (Pending.reading, add_to_current_buffer cl c)
  else if c = 0x1b then some (Pending.escape, cl)
  else if c = 10 then
    match submit cl with
    | some cl1 => some (Pending.reading, cl1)
    | none => none
  else some (Pending.reading, cl)

/-- Lines 83-84, 93 and 103-105 of `handle_escape_sequence`, once `c3` is read: the tests
that choose the branch, made without a lock, and the literal insertion of the else
branch. The arrow branches are entered and not yet run. -/
def escape_tests (cl : Commandline) (c2 c3 : Byte) : Pending × Commandline :=
  if c2 = 91 ∧ history_enabled cl = true then
    if c3 = 65 ∧ ¬ cl.m_history = [] then (Pending.arrow_up, cl)
    else if c3 = 66 ∧ ¬ cl.m_history = [] then (Pending.arrow_down, cl)
    else (Pending.reading, cl)
  else (Pending.reading, add_to_current_buffer (add_to_current_buffer cl c2) c3)

/-- The next atomic step of the input thread when it is inside an arrow branch: the call
of line 85 or 94 (one critical section of `m_history_mutex`), or the lookup and redraw of
lines 86-92 or 95-101 (another one). Parked in a read, it does nothing. -/
def input_step (p : Pending) (cl : Commandline) : Option (Pending × Commandline) :=
  match p with
  | Pending.arrow_up => some (Pending.lookup, go_back_in_history cl)
  | Pending.arrow_down => some (Pending.lookup, go_forward_in_history cl)
  | Pending.lookup =>
    match show_history_entry cl with
    | some cl1 => some (Pending.reading, cl1)
    | none => none
  | _ => some (p, cl)

/-- The input thread runs on undisturbed until it is parked in a read again. -/
def input_finish (p : Pending) (cl : Commandline) : Option Commandline :=
  match p with
  | Pending.arrow_up => show_history_entry (go_back_in_history cl)
  | Pending.arrow_down => show_history_entry (go_forward_in_history cl)
  | Pending.lookup => show_history_entry cl
  | _ => some cl

/-- The next byte `c` is delivered to the input thread: it runs on to its next read (when
it is inside an arrow branch), takes the byte there and goes on to the next place where
another thread can get in between. -/
def input_byte (p : Pending) (cl : Commandline) (c : Byte) : Option (Pending × Commandline) :=
  match p with
  | Pending.reading => inner_loop_byte cl c
  | Pending.escape => some (Pending.escape2 c, cl)
  | Pending.escape2 c2 => some (escape_tests cl c2 c)
  | _ =>
    match input_finish p cl with
    | some cl1 => inner_loop_byte cl1 c
    | none => none

/-- The bytes the input thread has consumed since it was last parked in the inner loop. -/
def pending_bytes : Pending → List Byte
  | Pending.escape => [0x1b]
  | Pending.escape2 c2 => [0x1b, c2]
  | _ => []

/-- What happens next: a byte reaches the input thread, the input thread takes its next
atomic step, or the application calls a facade operation, which runs as one critical
section of `m_history_mutex` wherever the input thread stands. -/
inductive Event where
  | key (c : Byte)
  | step
  | set_history_limit (count : Nat)
  | clear_history
  | enable_history
  | disable_history
  deriving DecidableEq, Repr

/-- The input thread and the facade calls, event by event. -/
def run_events : Pending × Commandline → List Event → Option (Pending × Commandline)
  | st, [] => some st
  | (p, cl), Event.key c :: evs =>
    match input_byte p cl c with
    | some st1 => run_events st1 evs
    | none => none
  | (p, cl), Event.step :: evs =>
    match input_step p cl with
    | some st1 => run_events st1 evs
    | none => none
  | (p, cl), Event.set_history_limit count :: evs => run_events (p, set_history_limit cl count) evs
  | (p, cl), Event.clear_history :: evs => run_events (p, clear_history cl) evs
  | (p, cl), Event.enable_history :: evs => run_events (p, enable_history cl) evs
  | (p, cl), Event.disable_history :: evs => run_events (p, disable_history cl) evs

end Commandline

/-! ## The ANSI stripper -/

namespace ansi

theorem scan_normal_plain (s : Str) (hs : ∀ c ∈ s, c ≠ 0x1b) (acc rest : Str) :
    scan State.Normal acc (s ++ rest) = scan State.Normal (acc ++ s) rest := by
  induction s generalizing acc with
  | nil => simp
  | cons c s ih =>
    have hc : c ≠ 0x1b := hs c (by simp)
    have hs' : ∀ d ∈ s, d ≠ 0x1b := fun d hd => hs d (by simp [hd])
    simp only [List.cons_append, scan, hc, and_false, if_false, false_and, if_true]
    simp [ih hs' (acc ++ [c])]

theorem scan_escaped_params (p : Str) (hp : ∀ c ∈ p, is_terminator c = false) (acc rest : Str) :
    scan State.Escaped acc (p ++ rest) = scan State.Escaped acc rest := by
  induction p with
  | nil => simp
  | cons c p ih =>
    have hc : is_terminator c = false := hp c (by simp)
    have hp' : ∀ d ∈ p, is_terminator d = false := fun d hd => hp d (by simp [hd])
    simp [scan, hc, ih hp']

theorem scan_acc (st : State) (acc s : Str) :
    scan st acc s = acc ++ scan st [] s := by
  induction s generalizing st acc with
  | nil => simp [scan]
  | cons c s ih =>
    simp only [scan]
    split_ifs with h1 h2 h3
    · exact ih _ _
    · exact ih _ _
    · rw [ih _ (acc ++ [c]), ih _ ([] ++ [c])]; simp
    · exact ih _ _

theorem scan_no_esc (st : State) (acc s : Str) (hacc : ∀ c ∈ acc, c ≠ 0x1b) :
    ∀ c ∈ scan st acc s, c ≠ 0x1b := by
  induction s generalizing st acc with
  | nil => simpa [scan] using hacc
  | cons c s ih =>
    simp only [scan]
    split_ifs with h1 h2 h3
    · exact ih _ _ hacc
    · exact ih _ _ hacc
    · apply ih
      intro d hd
      rcases List.mem_append.1 hd with hd | hd
      · exact hacc d hd
      · have hdc : d = c := by simpa using hd
        subst hdc
        intro hE
        exact h1 ⟨h3, hE⟩
    · exact ih _ _ hacc

theorem remove_plain (s : Str) (hs : ∀ c ∈ s, c ≠ 0x1b) : remove_ansi_escape_codes s = s := by
  have h := scan_normal_plain s hs [] []
  simpa [remove_ansi_escape_codes, scan] using h

/-- C1: `remove_ansi_escape_codes` is idempotent: stripping an already stripped byte
string gives the same byte string. -/
theorem remove_ansi_escape_codes_idempotent (s : Str) :
    remove_ansi_escape_codes (remove_ansi_escape_codes s) = remove_ansi_escape_codes s :=
  remove_plain _ (scan_no_esc State.Normal [] s (by simp))

/-- C2: for `pre` without ESC, `params` without a terminator byte, a terminator `t` and any
`post`, stripping `pre ++ [ESC] ++ params ++ [t] ++ post` gives `pre` followed by the
stripped `post`: the ESC, the parameter bytes and the terminator are removed, nothing else. -/
theorem remove_ansi_escape_codes_sequence (pre params post : Str) (t : Byte)
    (hpre : ∀ c ∈ pre, c ≠ 0x1b)
    (hparams : ∀ c ∈ params, is_terminator c = false)
    (ht : is_terminator t = true) :
    remove_ansi_escape_codes (pre ++ [0x1b] ++ params ++ [t] ++ post)
      = pre ++ remove_ansi_escape_codes post := by
  unfold remove_ansi_escape_codes
  have e : pre ++ [0x1b] ++ params ++ [t] ++ post = pre ++ (0x1b :: (params ++ (t :: post))) := by
    simp
  rw [e, scan_normal_plain pre hpre]
  simp only [scan, and_self, if_true, List.nil_append]
  rw [scan_escaped_params params hparams]
  simp only [scan, ht, and_self, if_true]
  have h27 : ¬ (State.Escaped = State.Normal ∧ t = 27) := by simp
  simp only [h27, if_false]
  exact scan_acc _ _ _

/-- Witness of C2 on the test string `"ab\x1b[1;2mcd"`. -/
theorem remove_ansi_escape_codes_sequence_witness :
    remove_ansi_escape_codes ([97, 98] ++ [0x1b] ++ [91, 49, 59, 50] ++ [109] ++ [99, 100])
      = [97, 98] ++ remove_ansi_escape_codes [99, 100] :=
  remove_ansi_escape_codes_sequence [97, 98] [91, 49, 59, 50] [99, 100] 109
    (by decide) (by decide) (by decide)

/-- C3: plain text is unchanged: a byte string without the ESC byte is returned as it is. -/
theorem remove_ansi_escape_codes_plain (s : Str) (hs : ∀ c ∈ s, c ≠ 0x1b) :
    remove_ansi_escape_codes s = s :=
  remove_plain s hs

/-- Witness of C3 on the test string `"hello"`. -/
theorem remove_ansi_escape_codes_plain_witness :
    remove_ansi_escape_codes [104, 101, 108, 108, 111] = [104, 101, 108, 108, 111] :=
  remove_ansi_escape_codes_plain [104, 101, 108, 108, 111] (by decide)

/-- C17: an ESC that is not followed by a terminator suppresses the rest of the input: for
`pre` without ESC and `rest` without a terminator byte, stripping `pre ++ [ESC] ++ rest`
gives `pre`. -/
theorem remove_ansi_escape_codes_unterminated (pre rest : Str)
    (hpre : ∀ c ∈ pre, c ≠ 0x1b)
    (hrest : ∀ c ∈ rest, is_terminator c = false) :
    remove_ansi_escape_codes (pre ++ [0x1b] ++ rest) = pre := by
  unfold remove_ansi_escape_codes
  have e : pre ++ [0x1b] ++ rest = pre ++ (0x1b :: (rest ++ [])) := by simp
  rw [e, scan_normal_plain pre hpre]
  simp only [scan, and_self, if_true, List.nil_append]
  rw [scan_escaped_params rest hrest]
  simp [scan]

/-- Witness of C17 on `"ab\x1b[31;1 cd"`, where no terminator follows the ESC. -/
theorem remove_ansi_escape_codes_unterminated_witness :
    remove_ansi_escape_codes ([97, 98] ++ [0x1b] ++ [91, 51, 49, 59, 49, 32, 99, 100])
      = [97, 98] :=
  remove_ansi_escape_codes_unterminated [97, 98] [91, 51, 49, 59, 49, 32, 99, 100]
    (by decide) (by decide)

/-- C19: the output of `remove_ansi_escape_codes` never contains the ESC byte, whatever
the input, consecutive ESC bytes included. -/
theorem remove_ansi_escape_codes_no_esc (s : Str) :
    (0x1b : Byte) ∉ remove_ansi_escape_codes s := by
  intro h
  exact scan_no_esc State.Normal [] s (by simp) 0x1b h rfl

end ansi

/-! ## Edit buffer, history and input loop -/

namespace Commandline

theorem isprint_not_control (c : Nat) (hc : isprint c = true) :
    ¬ (c = 8 ∨ c = 127) ∧ c ≠ 0x1b ∧ c ≠ 10 := by
  have h : 32 ≤ c ∧ c ≤ 126 := by simpa [isprint] using hc
  omega

theorem input_thread_main_cons_printable (cl : Commandline) (c : Byte) (rest : List Byte)
    (hc : isprint c = true) :
    input_thread_main cl (c :: rest) = input_thread_main (add_to_current_buffer cl c) rest := by
  have hn := isprint_not_control c hc
  rcases rest with _ | ⟨c2, _ | ⟨c3, rest2⟩⟩ <;> simp [input_thread_main, hn.1, hc]

theorem input_thread_main_enter (cl : Commandline) (rest : List Byte) :
    input_thread_main cl (10 :: rest) =
      match submit cl with
      | some cl1 => input_thread_main cl1 rest
      | none => none := by
  rcases rest with _ | ⟨c2, _ | ⟨c3, rest2⟩⟩ <;> simp [input_thread_main, isprint]

theorem input_thread_main_escape (cl : Commandline) (c2 c3 : Byte) (rest : List Byte) :
    input_thread_main cl (0x1b :: c2 :: c3 :: rest) =
      match handle_escape_sequence cl c2 c3 with
      | some cl1 => input_thread_main cl1 rest
      | none => none := by
  simp [input_thread_main, isprint]

theorem input_thread_main_backspace (cl : Commandline) (c : Byte) (rest : List Byte)
    (hc : c = 8 ∨ c = 127) :
    input_thread_main cl (c :: rest) = input_thread_main (handle_backspace cl) rest := by
  rcases rest with _ | ⟨c2, _ | ⟨c3, rest2⟩⟩ <;> simp [input_thread_main, hc]

/-- Printable bytes are appended one by one by the inner loop. -/
theorem input_thread_main_printable (s : Str) (hs : ∀ c ∈ s, isprint c = true)
    (cl : Commandline) (rest : List Byte) :
    input_thread_main cl (s ++ rest) = input_thread_main (s.foldl add_to_current_buffer cl) rest := by
  induction s generalizing cl with
  | nil => simp
  | cons c s ih =>
    have hc : isprint c = true := hs c (by simp)
    have hs2 : ∀ d ∈ s, isprint d = true := fun d hd => hs d (by simp [hd])
    have hn := isprint_not_control c hc
    rw [List.cons_append, input_thread_main_cons_printable cl c _ hc, List.foldl_cons]
    exact ih hs2 _

theorem foldl_add_buffer (s : Str) (cl : Commandline) :
    (s.foldl add_to_current_buffer cl).m_current_buffer = cl.m_current_buffer ++ s := by
  induction s generalizing cl with
  | nil => simp
  | cons c s ih => simp [ih, add_to_current_buffer]

theorem foldl_add_to_read (s : Str) (cl : Commandline) :
    (s.foldl add_to_current_buffer cl).m_to_read = cl.m_to_read := by
  induction s generalizing cl with
  | nil => simp
  | cons c s ih => simp [ih, add_to_current_buffer]

theorem foldl_add_history (s : Str) (cl : Commandline) :
    (s.foldl add_to_current_buffer cl).m_history = cl.m_history ∧
    (s.foldl add_to_current_buffer cl).m_history_limit = cl.m_history_limit ∧
    (s.foldl add_to_current_buffer cl).m_history_enabled = cl.m_history_enabled := by
  induction s generalizing cl with
  | nil => simp
  | cons c s ih => simp [ih, add_to_current_buffer]

/-- The push of `add_to_history` is defined as soon as the limit is positive or the history
is not empty. -/
theorem add_to_history_defined (cl : Commandline) (str : Str)
    (h : 1 ≤ cl.m_history_limit ∨ cl.m_history ≠ []) :
    ∃ cl1, add_to_history cl str = some cl1 ∧
      cl1.m_current_buffer = cl.m_current_buffer ∧ cl1.m_to_read = cl.m_to_read := by
  unfold add_to_history
  split_ifs with hlt
  · cases hh : cl.m_history with
    | nil =>
      rcases h with h | h
      · simp [hh] at hlt; omega
      · exact absurd hh h
    | cons e es => simp [erase_begin]
  · simp

/-- Everywhere else than at the undefined `erase`, typing printable bytes and Enter queues
exactly the typed line and resets the edit buffer. -/
theorem type_line_then_enter (cl : Commandline) (s : Str)
    (hs : ∀ c ∈ s, isprint c = true)
    (hbuf : cl.m_current_buffer = []) (hq : cl.m_to_read = [])
    (hdef : cl.m_history_enabled = false ∨ 1 ≤ cl.m_history_limit ∨ cl.m_history ≠ []) :
    ∃ cl1, input_thread_main cl (s ++ [10]) = some cl1 ∧
      cl1.m_to_read = [s] ∧ cl1.m_current_buffer = [] ∧ cl1.m_cursor_pos = 0 := by
  rw [input_thread_main_printable s hs]
  obtain ⟨hh, hl, he⟩ := foldl_add_history s cl
  have hb := foldl_add_buffer s cl
  have hr := foldl_add_to_read s cl
  generalize s.foldl add_to_current_buffer cl = st at hh hl he hb hr
  rw [hbuf, List.nil_append] at hb
  rw [hq] at hr
  rw [input_thread_main_enter]
  cases hen : st.m_history_enabled with
  | false => simp [submit, history_enabled, hen, hb, hr, input_thread_main]
  | true =>
    have hd : 1 ≤ st.m_history_limit ∨ st.m_history ≠ [] := by
      rcases hdef with h | h | h
      · rw [← he, hen] at h; exact absurd h (by simp)
      · exact Or.inl (hl ▸ h)
      · exact Or.inr (hh ▸ h)
    obtain ⟨st1, h1, h2, h3⟩ := add_to_history_defined st st.m_current_buffer hd
    rw [hb] at h1 h2
    simp [submit, history_enabled, hen, h1, h2, h3, hb, hr, input_thread_main]

/-- C4: with history enabled and history limit 0, typing `"abc"` and Enter into a fresh
object does not queue the line: `add_to_history` erases the first element of an empty
vector, which is undefined, before the line reaches the command queue. -/
theorem type_abc_enter_history_limit_zero :
    input_thread_main (fresh 0 true) [97, 98, 99, 10] = none := by
  decide

/-- With a positive limit the push is defined and keeps the history within the limit. -/
theorem add_to_history_within_limit (cl : Commandline) (str : Str)
    (hlim : 1 ≤ cl.m_history_limit) (hle : cl.m_history.length ≤ cl.m_history_limit) :
    ∃ cl1, add_to_history cl str = some cl1 ∧ cl1.m_history_limit = cl.m_history_limit ∧
      cl1.m_history.length ≤ cl1.m_history_limit := by
  unfold add_to_history
  split_ifs with hlt
  · cases hh : cl.m_history with
    | nil => simp [hh] at hlt; omega
    | cons e es =>
      simp only [erase_begin, Option.map_some']
      refine ⟨_, rfl, rfl, ?_⟩
      simp [hh] at hle ⊢
      omega
  · refine ⟨_, rfl, rfl, ?_⟩
    simp at hlt ⊢
    omega

/-- C5: with history limit 0 the first submit does not leave a history within the limit:
`add_to_history` finds `0 + 1 > 0` and erases the first element of the empty history,
which is undefined, both when called directly and when reached through Enter. -/
theorem add_to_history_limit_zero :
    add_to_history (fresh 0 true) [97] = none ∧
    input_thread_main (fresh 0 true) [97, 10] = none := by
  decide

/-- C6: adding a line to a history that holds `limit` entries, `limit ≥ 1`, evicts the
oldest entry: the new entries are the old ones without the first, followed by the new
line; and with limit 2, submitting `"a"`, `"b"`, `"c"` from an empty history leaves
`["b", "c"]`. -/
theorem add_to_history_evicts_oldest (cl : Commandline) (str : Str)
    (hlim : 1 ≤ cl.m_history_limit) (hfull : cl.m_history.length = cl.m_history_limit) :
    (∃ cl1, add_to_history cl str = some cl1 ∧ cl1.m_history = cl.m_history.tail ++ [str]) ∧
    (input_thread_main (fresh 2 true) [97, 10, 98, 10, 99, 10]).map (fun st => st.m_history)
      = some [[98], [99]] := by
  refine ⟨?_, by decide⟩
  unfold add_to_history
  cases hh : cl.m_history with
  | nil => simp [hh] at hfull; omega
  | cons e es => simp [hh] at hfull; simp [← hfull, erase_begin]

/-- Witness of C6: a full history `["a", "b"]` with limit 2 receives `"c"`. -/
theorem add_to_history_evicts_oldest_witness :
    (∃ cl1, add_to_history { fresh 2 true with m_history := [[97], [98]] } [99] = some cl1 ∧
      cl1.m_history = ([[97], [98]] : List Str).tail ++ [[99]]) ∧
    (input_thread_main (fresh 2 true) [97, 10, 98, 10, 99, 10]).map (fun st => st.m_history)
      = some [[98], [99]] :=
  add_to_history_evicts_oldest { fresh 2 true with m_history := [[97], [98]] } [99]
    (by decide) (by decide)

/-- C7: in a state with history enabled, a non-empty history and the history index one
past the last entry, the up-arrow sequence followed by the down-arrow sequence puts the
index back one past the last entry and shows the temp buffer as it was before. -/
theorem up_then_down_restores (cl : Commandline)
    (hen : cl.m_history_enabled = true) (hne : cl.m_history ≠ [])
    (hidx : cl.m_history_index = cl.m_history.length) :
    ∃ cl2, input_thread_main cl [0x1b, 91, 65, 0x1b, 91, 66] = some cl2 ∧
      cl2.m_history = cl.m_history ∧
      cl2.m_history_index = cl2.m_history.length ∧
      cl2.m_current_buffer = cl.m_history_temp_buffer := by
  have hpos : 0 < cl.m_history.length := List.length_pos.2 hne
  have hi0 : cl.m_history_index ≠ 0 := by omega
  have hlt : cl.m_history_index - 1 < cl.m_history.length := by omega
  have hne1 : cl.m_history_index - 1 ≠ cl.m_history.length := by omega
  have hback : cl.m_history_index - 1 + 1 = cl.m_history.length := by omega
  obtain ⟨entry, hentry⟩ : ∃ e, cl.m_history[cl.m_history_index - 1]? = some e :=
    ⟨_, List.getElem?_eq_getElem hlt⟩
  rw [input_thread_main_escape]
  have hup : handle_escape_sequence cl 91 65 = some (update_current_buffer_view
      { cl with m_history_index := cl.m_history_index - 1, m_current_buffer := entry }) := by
    simp [handle_escape_sequence, history_enabled, hen, hne, go_back_in_history, hi0,
      show_history_entry, hne1, hentry]
  rw [hup]
  simp only []
  rw [input_thread_main_escape]
  simp [handle_escape_sequence, history_enabled, update_current_buffer_view, hen, hne,
    go_forward_in_history, hne1, show_history_entry, hback, input_thread_main]

/-- Witness of C7: history `["x"]`, temp buffer `"ab"`. -/
theorem up_then_down_restores_witness :
    ∃ cl2, input_thread_main
        { fresh 5 true with m_history := [[120]], m_history_index := 1,
                            m_current_buffer := [97, 98], m_history_temp_buffer := [97, 98] }
        [0x1b, 91, 65, 0x1b, 91, 66] = some cl2 ∧
      cl2.m_history = [[120]] ∧
      cl2.m_history_index = cl2.m_history.length ∧
      cl2.m_current_buffer = [97, 98] :=
  up_then_down_restores
    { fresh 5 true with m_history := [[120]], m_history_index := 1,
                        m_current_buffer := [97, 98], m_history_temp_buffer := [97, 98] }
    rfl (by decide) rfl

/-- C8: unsaved keystrokes are not preserved after a backspace. From a fresh object with
history enabled, the keys `x`, Enter, `a`, `b`, backspace reach a state with edit buffer
`"a"`, a non-empty history and the index one past its end; up-arrow then down-arrow leave
the edit buffer `"ab"`, because `handle_backspace` does not refresh the temp buffer. -/
theorem backspace_then_up_down_changes_buffer :
    ∃ before after,
      input_thread_main (fresh 10 true) [120, 10, 97, 98, 127] = some before ∧
      before.m_history_enabled = true ∧ before.m_history ≠ [] ∧
      before.m_history_index = before.m_history.length ∧
      before.m_current_buffer = [97] ∧
      input_thread_main before [0x1b, 91, 65, 0x1b, 91, 66] = some after ∧
      after.m_current_buffer = [97, 98] :=
  ⟨_, _, rfl, rfl, by decide, rfl, rfl, rfl, rfl⟩

/-- C9: with history disabled, ESC followed by any two bytes `c2`, `c3` appends both
bytes, in order, to the edit buffer. -/
theorem escape_appends_when_history_disabled (cl : Commandline) (c2 c3 : Byte)
    (hdis : cl.m_history_enabled = false) :
    ∃ cl1, input_thread_main cl [0x1b, c2, c3] = some cl1 ∧
      handle_escape_sequence cl c2 c3 = some cl1 ∧
      cl1.m_current_buffer = cl.m_current_buffer ++ [c2, c3] := by
  rw [input_thread_main_escape]
  simp [handle_escape_sequence, history_enabled, hdis, add_to_current_buffer,
    input_thread_main]

/-- Witness of C9: ESC `x` `y` on an empty buffer gives `"xy"`. -/
theorem escape_appends_when_history_disabled_witness :
    ∃ cl1, input_thread_main (fresh 0 false) [0x1b, 120, 121] = some cl1 ∧
      handle_escape_sequence (fresh 0 false) 120 121 = some cl1 ∧
      cl1.m_current_buffer = (fresh 0 false).m_current_buffer ++ [120, 121] :=
  escape_appends_when_history_disabled (fresh 0 false) 120 121 rfl

/-- C10: backspace on an empty edit buffer is a no-op: for `'\b'` and for `0x7F` the
input loop returns the state it was given, whole (content, cursor, temp buffer, history,
both queues, terminal), and does not fail. -/
theorem backspace_on_empty_is_noop (cl : Commandline) (c : Byte)
    (hc : c = 8 ∨ c = 127) (hempty : cl.m_current_buffer = []) :
    handle_backspace cl = cl ∧ input_thread_main cl [c] = some cl := by
  have hb : handle_backspace cl = cl := by simp [handle_backspace, hempty]
  refine ⟨hb, ?_⟩
  rw [input_thread_main_backspace cl c [] hc, hb]
  simp [input_thread_main]

/-- Witness of C10: `0x7F` typed into a fresh object. -/
theorem backspace_on_empty_is_noop_witness :
    handle_backspace (fresh 3 true) = fresh 3 true ∧
    input_thread_main (fresh 3 true) [127] = some (fresh 3 true) :=
  backspace_on_empty_is_noop (fresh 3 true) 127 (by decide) rfl

theorem add_to_history_frame (cl cl1 : Commandline) (str : Str)
    (h : add_to_history cl str = some cl1) :
    cl1.m_current_buffer = cl.m_current_buffer ∧ cl1.m_to_read = cl.m_to_read ∧
    cl1.m_history_enabled = cl.m_history_enabled ∧ cl1.m_cursor_pos = cl.m_cursor_pos := by
  unfold add_to_history at h
  rcases Option.map_eq_some'.1 h with ⟨hist, _, rfl⟩
  simp

/-- What lines 136-139 do when the submit is carried out: the edit buffer goes to the back
of the command queue, once, and is reset. -/
theorem submit_queue (cl cl1 : Commandline) (h : submit cl = some cl1) :
    cl1.m_to_read = cl.m_to_read ++ [cl.m_current_buffer] ∧
    cl1.m_current_buffer = [] ∧ cl1.m_cursor_pos = 0 := by
  unfold submit at h
  rcases Option.map_eq_some'.1 h with ⟨st, hst, rfl⟩
  split_ifs at hst with hen
  · obtain ⟨hb, hr, _, _⟩ := add_to_history_frame cl st _ hst
    simp [hb, hr]
  · cases hst
    simp

theorem type_lines_queue (ls : List Str) (hls : ∀ l ∈ ls, ∀ c ∈ l, isprint c = true)
    (cl cl1 : Commandline) (hbuf : cl.m_current_buffer = [])
    (hrun : input_thread_main cl (type_lines ls) = some cl1) :
    cl1.m_to_read = cl.m_to_read ++ ls ∧ cl1.m_current_buffer = [] := by
  induction ls generalizing cl with
  | nil =>
    simp only [type_lines, input_thread_main, Option.some.injEq] at hrun
    subst hrun
    simp [hbuf]
  | cons l ls ih =>
    have hl : ∀ c ∈ l, isprint c = true := hls l (by simp)
    have hls2 : ∀ m ∈ ls, ∀ c ∈ m, isprint c = true := fun m hm => hls m (by simp [hm])
    rw [type_lines, input_thread_main_printable l hl, input_thread_main_enter] at hrun
    have hb := foldl_add_buffer l cl
    have hr := foldl_add_to_read l cl
    generalize l.foldl add_to_current_buffer cl = st at hrun hb hr
    rw [hbuf, List.nil_append] at hb
    cases hsub : submit st with
    | none => rw [hsub] at hrun; cases hrun
    | some st1 =>
      rw [hsub] at hrun
      obtain ⟨hq, hb1, _⟩ := submit_queue st st1 hsub
      obtain ⟨h1, h2⟩ := ih hls2 st1 hb1 hrun
      refine ⟨?_, h2⟩
      rw [h1, hq, hr, hb]
      simp

theorem get_commands_all (q : List Str) (cl : Commandline) (hq : cl.m_to_read = q) :
    get_commands q.length cl = some (q, { cl with m_to_read := [] }) := by
  induction q generalizing cl with
  | nil =>
    cases cl
    simp only at hq
    subst hq
    rfl
  | cons e q ih =>
    simp only [List.length_cons, get_commands, get_command, hq]
    rw [ih { cl with m_to_read := q } rfl]

/-- C11: the command queue is FIFO and receives each submitted line once: when the input
loop has submitted the lines `l1 .. ln` (typed into an empty edit buffer, the queue empty
before), `n` successive `get_command` calls return `l1 .. ln` in submission order, and
`has_command` is false afterwards. -/
theorem command_queue_fifo (cl cl1 : Commandline) (ls : List Str)
    (hls : ∀ l ∈ ls, ∀ c ∈ l, isprint c = true)
    (hbuf : cl.m_current_buffer = []) (hq : cl.m_to_read = [])
    (hrun : input_thread_main cl (type_lines ls) = some cl1) :
    ∃ cl2, get_commands ls.length cl1 = some (ls, cl2) ∧ has_command cl2 = false := by
  obtain ⟨h1, _⟩ := type_lines_queue ls hls cl cl1 hbuf hrun
  rw [hq, List.nil_append] at h1
  exact ⟨_, get_commands_all ls cl1 h1, by simp [has_command]⟩

/-- Witness of C11: the lines `"ab"`, `""`, `"c"` typed into a fresh object. -/
theorem command_queue_fifo_witness :
    ∃ cl1, input_thread_main (fresh 2 true) (type_lines [[97, 98], [], [99]]) = some cl1 ∧
      ∃ cl2, get_commands ([[97, 98], [], [99]] : List Str).length cl1
          = some ([[97, 98], [], [99]], cl2) ∧
        has_command cl2 = false :=
  ⟨_, rfl, command_queue_fifo (fresh 2 true) _ [[97, 98], [], [99]] (by decide) rfl rfl rfl⟩

/-- The history cursor stays within `[0, length(entries)]` under the push (when it is
defined), both moves and `set_history_limit`. -/
theorem history_index_in_range_preserved (cl : Commandline)
    (h : cl.m_history_index ≤ cl.m_history.length) :
    (∀ str cl1, add_to_history cl str = some cl1 → cl1.m_history_index ≤ cl1.m_history.length) ∧
    (go_back_in_history cl).m_history_index ≤ (go_back_in_history cl).m_history.length ∧
    (go_forward_in_history cl).m_history_index ≤ (go_forward_in_history cl).m_history.length ∧
    (∀ n, (set_history_limit cl n).m_history_index ≤ (set_history_limit cl n).m_history.length) := by
  refine ⟨?_, ?_, ?_, ?_⟩
  · intro str cl1 h1
    unfold add_to_history at h1
    rcases Option.map_eq_some'.1 h1 with ⟨hist, _, rfl⟩
    simp
  · unfold go_back_in_history
    split_ifs
    · exact h
    · simp only []; omega
  · unfold go_forward_in_history
    split_ifs with he
    · exact h
    · simp only []; omega
  · intro n
    simpa [set_history_limit] using h

/-- C13: `clear_history` does not keep the history cursor within `[0, length(entries)]`.
After `a`, Enter in a fresh object with history enabled the cursor is 1 with one entry;
`clear_history` empties the entries and leaves the cursor at 1. -/
theorem clear_history_leaves_index :
    ∃ st, input_thread_main (fresh 5 true) [97, 10] = some st ∧
      st.m_history_index ≤ st.m_history.length ∧
      (clear_history st).m_history = [] ∧
      (clear_history st).m_history_index = 1 ∧
      ¬ (clear_history st).m_history_index ≤ (clear_history st).m_history.length :=
  ⟨_, rfl, by decide, rfl, rfl, by decide⟩

/-- C14, as stated, fails: with history enabled, ESC `[` `A` on an empty history and
ESC `[` `C` leave the state as it was; neither byte reaches the edit buffer. -/
theorem escape_bracket_discarded_when_history_enabled :
    (fresh 5 true).m_history = [] ∧
    input_thread_main (fresh 5 true) [0x1b, 91, 65] = some (fresh 5 true) ∧
    input_thread_main (fresh 5 true) [0x1b, 91, 67] = some (fresh 5 true) ∧
    (fresh 5 true).m_current_buffer ≠ (fresh 5 true).m_current_buffer ++ [91, 67] := by
  decide

/-- C14, amended: when history is disabled or `c2` is not `[`, ESC `c2` `c3` appends `c2`
and then `c3` to the edit buffer; when history is enabled and `c2` is `[`, a sequence
that moves nothing in the history (`c3` neither `A` nor `B`, or an empty history) leaves
the state unchanged. -/
theorem escape_appends_unless_bracket (cl : Commandline) (c2 c3 : Byte) :
    (cl.m_history_enabled = false ∨ c2 ≠ 91 →
      ∃ cl1, input_thread_main cl [0x1b, c2, c3] = some cl1 ∧
        cl1.m_current_buffer = cl.m_current_buffer ++ [c2, c3]) ∧
    (cl.m_history_enabled = true → c2 = 91 → (c3 ≠ 65 ∧ c3 ≠ 66) ∨ cl.m_history = [] →
      input_thread_main cl [0x1b, c2, c3] = some cl) := by
  constructor
  · intro h
    have hc : ¬ (c2 = 91 ∧ history_enabled cl = true) := by
      rintro ⟨h1, h2⟩
      rcases h with h | h
      · simp [history_enabled, h] at h2
      · exact h h1
    rw [input_thread_main_escape]
    simp [handle_escape_sequence, hc, add_to_current_buffer, input_thread_main]
  · intro hen hc2 h
    rw [input_thread_main_escape]
    rcases h with ⟨h65, h66⟩ | hempty
    · simp [handle_escape_sequence, history_enabled, hen, hc2, h65, h66, input_thread_main]
    · simp [handle_escape_sequence, history_enabled, hen, hc2, hempty, input_thread_main]

/-- Witness of the amended C14: ESC `x` `y` with history enabled is appended, ESC `[` `C`
with history enabled is dropped. -/
theorem escape_appends_unless_bracket_witness :
    (∃ cl1, input_thread_main (fresh 5 true) [0x1b, 120, 121] = some cl1 ∧
        cl1.m_current_buffer = (fresh 5 true).m_current_buffer ++ [120, 121]) ∧
    input_thread_main (fresh 5 true) [0x1b, 91, 67] = some (fresh 5 true) :=
  ⟨(escape_appends_unless_bracket (fresh 5 true) 120 121).1 (Or.inr (by decide)),
   (escape_appends_unless_bracket (fresh 5 true) 91 67).2 rfl rfl (Or.inl (by decide))⟩

/-- The edit buffer's cursor position follows the length of the content under append,
backspace and submit. -/
theorem cursor_pos_preserved (cl : Commandline)
    (h : cl.m_cursor_pos = cl.m_current_buffer.length) :
    (∀ c, (add_to_current_buffer cl c).m_cursor_pos
        = (add_to_current_buffer cl c).m_current_buffer.length) ∧
    (handle_backspace cl).m_cursor_pos = (handle_backspace cl).m_current_buffer.length ∧
    (∀ cl1, submit cl = some cl1 → cl1.m_cursor_pos = cl1.m_current_buffer.length) := by
  refine ⟨?_, ?_, ?_⟩
  · intro c
    simp [add_to_current_buffer, h]
  · unfold handle_backspace
    split_ifs with he
    · exact h
    · have hpos : 0 < cl.m_current_buffer.length := List.length_pos.2 he
      simp only [update_current_buffer_view, List.length_dropLast, h]
      omega
  · intro cl1 h1
    obtain ⟨_, hb, hc⟩ := submit_queue cl cl1 h1
    simp [hb, hc]

/-- C15: history navigation breaks `cursor_position = length(content)`. After `abc`,
Enter in a fresh object with history enabled the buffer is empty with cursor 0; the
up-arrow sequence then loads `"abc"` into the edit buffer and leaves the cursor at 0. -/
theorem history_navigation_leaves_cursor_pos :
    ∃ st st1, input_thread_main (fresh 5 true) [97, 98, 99, 10] = some st ∧
      st.m_cursor_pos = st.m_current_buffer.length ∧
      input_thread_main st [0x1b, 91, 65] = some st1 ∧
      st1.m_current_buffer = [97, 98, 99] ∧ st1.m_cursor_pos = 0 :=
  ⟨_, _, rfl, by decide, rfl, rfl, rfl⟩

/-- Everywhere else than at the undefined `erase`, Enter with history enabled makes the
edit buffer the last history entry, puts the cursor one past it, clears the temp buffer,
queues the line and resets the edit buffer. -/
theorem submit_with_history (cl : Commandline) (hen : cl.m_history_enabled = true)
    (hdef : 1 ≤ cl.m_history_limit ∨ cl.m_history ≠ []) :
    ∃ cl1, input_thread_main cl [10] = some cl1 ∧
      cl1.m_history.getLast? = some cl.m_current_buffer ∧
      cl1.m_history_index = cl1.m_history.length ∧
      cl1.m_history_temp_buffer = [] ∧
      cl1.m_to_read = cl.m_to_read ++ [cl.m_current_buffer] ∧
      cl1.m_current_buffer = [] ∧ cl1.m_cursor_pos = 0 := by
  rw [input_thread_main_enter]
  unfold submit add_to_history
  simp only [history_enabled, hen, if_true]
  split_ifs with hlt
  · cases hh : cl.m_history with
    | nil =>
      rcases hdef with h | h
      · simp [hh] at hlt; omega
      · exact absurd hh h
    | cons e es => simp [erase_begin, input_thread_main]
  · simp [input_thread_main]

/-- C16: with history enabled, history limit 0 and an empty history, Enter does not push
the edit buffer `b` anywhere, whatever `b` is: `add_to_history` erases the first element
of an empty vector, which is undefined. -/
theorem submit_history_limit_zero (b : Str) :
    input_thread_main { fresh 0 true with m_current_buffer := b } [10] = none := by
  rw [input_thread_main_enter]
  simp [submit, add_to_history, history_enabled, fresh, erase_begin]

theorem c_str_of_no_nul (w : Str) (hw : (0 : Byte) ∉ w) : c_str w = w := by
  unfold c_str
  rw [List.takeWhile_eq_self_iff]
  intro c hc
  have hne : c ≠ 0 := fun e => hw (e ▸ hc)
  simpa using hne

theorem printed_bytes_append (l1 l2 : List Printed) :
    printed_bytes (l1 ++ l2) = printed_bytes l1 ++ printed_bytes l2 := by
  induction l1 with
  | nil => rfl
  | cons c l1 ih => cases c <;> simp [printed_bytes, ih]

theorem printed_items_append (l1 l2 : List Printed) :
    printed_items (l1 ++ l2) = printed_items l1 ++ printed_items l2 := by
  induction l1 with
  | nil => rfl
  | cons c l1 ih => cases c <;> simp [printed_items, ih]

theorem printed_buffers_append (l1 l2 : List Printed) :
    printed_buffers (l1 ++ l2) = printed_buffers l1 ++ printed_buffers l2 := by
  induction l1 with
  | nil => rfl
  | cons c l1 ih => cases c <;> simp [printed_buffers, ih]

theorem printed_drain (q : List Str) :
    printed_bytes (q.map Printed.item) = drain_output q ∧
    printed_items (q.map Printed.item) = q ∧
    printed_buffers (q.map Printed.item) = [] := by
  induction q with
  | nil => exact ⟨rfl, rfl, rfl⟩
  | cons w q ih => simp [printed_bytes, printed_items, printed_buffers, drain_output, ih]

/-- A re-rendered edit buffer is printed only after an item, by the pass that printed the
item: there are at most as many re-renders as items. -/
theorem io_thread_calls_buffers_le (evs : List IoEvent) (cl : Commandline) :
    (printed_buffers (io_thread_calls cl evs)).length
      ≤ (printed_items (io_thread_calls cl evs)).length := by
  induction evs generalizing cl with
  | nil =>
    obtain ⟨_, h2, h3⟩ := printed_drain cl.m_to_write
    simp [io_thread_calls, h2, h3]
  | cons ev evs ih =>
    cases ev with
    | write str => simpa [io_thread_calls] using ih (write cl str)
    | edit buffer => simpa [io_thread_calls] using ih { cl with m_current_buffer := buffer }
    | pass =>
      have h := ih (io_thread_pass cl).1
      cases hq : cl.m_to_write with
      | nil =>
        have hc : io_pass_calls cl = [] := by simp [io_pass_calls, hq]
        simpa [io_thread_calls, hc] using h
      | cons w rest =>
        have hc : io_pass_calls cl = [Printed.item w, Printed.buffer cl.m_current_buffer] := by
          simp [io_pass_calls, hq]
        simp only [io_thread_calls, hc, printed_buffers_append, printed_items_append,
          List.length_append]
        simp only [printed_buffers, printed_items, List.length_cons, List.length_nil]
        omega

/-- The `printf` calls of the output thread are what it prints; the items among them are
the queued strings followed by the written ones, each once and in order; every other
call re-renders a content the edit buffer had. -/
theorem io_thread_calls_spec (evs : List IoEvent) (cl : Commandline) :
    printed_bytes (io_thread_calls cl evs) = io_thread_main cl evs ∧
    printed_items (io_thread_calls cl evs) = cl.m_to_write ++ writes evs ∧
    ∀ b ∈ printed_buffers (io_thread_calls cl evs), b = cl.m_current_buffer ∨ b ∈ edits evs := by
  induction evs generalizing cl with
  | nil =>
    obtain ⟨h1, h2, h3⟩ := printed_drain cl.m_to_write
    simp [io_thread_calls, io_thread_main, writes, h1, h2, h3]
  | cons ev evs ih =>
    cases ev with
    | write str =>
      obtain ⟨h1, h2, h3⟩ := ih (write cl str)
      refine ⟨by simpa [io_thread_calls, io_thread_main] using h1, ?_, ?_⟩
      · simpa [io_thread_calls, write, writes] using h2
      · intro b hb
        have := h3 b (by simpa [io_thread_calls] using hb)
        simpa [write, edits] using this
    | edit buffer =>
      obtain ⟨h1, h2, h3⟩ := ih { cl with m_current_buffer := buffer }
      refine ⟨by simpa [io_thread_calls, io_thread_main] using h1, ?_, ?_⟩
      · simpa [io_thread_calls, writes] using h2
      · intro b hb
        rcases h3 b (by simpa [io_thread_calls] using hb) with h | h
        · exact Or.inr (by simp [edits, h])
        · exact Or.inr (by simp [edits, h])
    | pass =>
      obtain ⟨h1, h2, h3⟩ := ih (io_thread_pass cl).1
      cases hq : cl.m_to_write with
      | nil =>
        have hp : io_thread_pass cl = (cl, []) := by simp [io_thread_pass, hq]
        have hc : io_pass_calls cl = [] := by simp [io_pass_calls, hq]
        rw [hp] at h1 h2 h3
        refine ⟨by simpa [io_thread_calls, io_thread_main, hp, hc] using h1, ?_, ?_⟩
        · simpa [io_thread_calls, hp, hc, writes, hq] using h2
        · intro b hb
          have := h3 b (by simpa [io_thread_calls, hp, hc] using hb)
          simpa [edits] using this
      | cons w rest =>
        have hc : io_pass_calls cl = [Printed.item w, Printed.buffer cl.m_current_buffer] := by
          simp [io_pass_calls, hq]
        have hw : (io_thread_pass cl).1.m_to_write = rest := by simp [io_thread_pass, hq]
        have hb1 : (io_thread_pass cl).1.m_current_buffer = cl.m_current_buffer := by
          simp [io_thread_pass, hq]
        have h2b : (io_thread_pass cl).2
            = clear_line ++ c_str w ++ [10] ++ c_str cl.m_current_buffer := by
          simp [io_thread_pass, hq]
        refine ⟨?_, ?_, ?_⟩
        · simp only [io_thread_calls, io_thread_main, hc, printed_bytes_append, h1, h2b]
          simp [printed_bytes]
        · simp only [io_thread_calls, hc, printed_items_append, h2, hw, writes]
          simp [printed_items]
        · intro b hb
          simp only [io_thread_calls, hc, printed_buffers_append] at hb
          rcases List.mem_append.1 hb with hb | hb
          · left
            simpa [printed_buffers] using hb
          · have := h3 b hb
            simpa [hb1, edits] using this

/-- C12, as stated, fails for a string with an embedded NUL: `write("a\0b")` followed by
a loop pass and shutdown prints the clear-line sequence, `a` and a newline; the byte `b`
is never printed, and the output is not the redraw protocol applied to the string that
was written, whatever follows the item. -/
theorem write_with_nul_is_truncated :
    io_thread_main (fresh 0 false) [IoEvent.write [97, 0, 98], IoEvent.pass]
      = clear_line ++ [97, 10] ∧
    (98 : Byte) ∉ io_thread_main (fresh 0 false) [IoEvent.write [97, 0, 98], IoEvent.pass] ∧
    ¬ ∃ rs : List Str, rs.length = 1 ∧
      io_thread_main (fresh 0 false) [IoEvent.write [97, 0, 98], IoEvent.pass]
        = rendered [[97, 0, 98]] rs := by
  have e : io_thread_main (fresh 0 false) [IoEvent.write [97, 0, 98], IoEvent.pass]
      = clear_line ++ [97, 10] := by decide
  refine ⟨e, by decide, ?_⟩
  rintro ⟨rs, hl, h⟩
  rw [e] at h
  rcases rs with _ | ⟨r, _ | ⟨r2, rs⟩⟩
  · simp at hl
  · simp [rendered, clear_line] at h
  · simp at hl

/-- C12, amended: for every sequence of strings passed to `write` while the output loop
runs (queue empty before), the bytes the loop prints, final drain included, are those of
its `printf` calls; the item calls are the written strings, each exactly once and in call
order, each printed after the clear-line sequence, up to its first NUL, and followed by a
newline; every other call re-renders a content the edit buffer had, at most one such call
per item; a string without NUL is printed whole. -/
theorem writes_printed_in_order (cl : Commandline) (evs : List IoEvent)
    (hq : cl.m_to_write = []) :
    io_thread_main cl evs = printed_bytes (io_thread_calls cl evs) ∧
    printed_items (io_thread_calls cl evs) = writes evs ∧
    (∀ w rest, printed_bytes (Printed.item w :: rest)
        = clear_line ++ c_str w ++ [10] ++ printed_bytes rest) ∧
    (∀ b ∈ printed_buffers (io_thread_calls cl evs), b = cl.m_current_buffer ∨ b ∈ edits evs) ∧
    (printed_buffers (io_thread_calls cl evs)).length ≤ (writes evs).length ∧
    (∀ w ∈ writes evs, (0 : Byte) ∉ w → c_str w = w) := by
  obtain ⟨h1, h2, h3⟩ := io_thread_calls_spec evs cl
  have h4 := io_thread_calls_buffers_le evs cl
  rw [hq, List.nil_append] at h2
  rw [h2] at h4
  exact ⟨h1.symm, h2, fun _ _ => rfl, h3, h4, fun w _ hw => c_str_of_no_nul w hw⟩

/-- Witness of the amended C12: two writes around a pass with `"x"` in the edit buffer. -/
theorem writes_printed_in_order_witness :
    io_thread_main (fresh 0 false)
        [IoEvent.write [97], IoEvent.edit [120], IoEvent.pass, IoEvent.write [98]]
      = printed_bytes (io_thread_calls (fresh 0 false)
        [IoEvent.write [97], IoEvent.edit [120], IoEvent.pass, IoEvent.write [98]]) ∧
    printed_items (io_thread_calls (fresh 0 false)
        [IoEvent.write [97], IoEvent.edit [120], IoEvent.pass, IoEvent.write [98]])
      = writes [IoEvent.write [97], IoEvent.edit [120], IoEvent.pass, IoEvent.write [98]] ∧
    (∀ w rest, printed_bytes (Printed.item w :: rest)
        = clear_line ++ c_str w ++ [10] ++ printed_bytes rest) ∧
    (∀ b ∈ printed_buffers (io_thread_calls (fresh 0 false)
        [IoEvent.write [97], IoEvent.edit [120], IoEvent.pass, IoEvent.write [98]]),
      b = (fresh 0 false).m_current_buffer ∨
      b ∈ edits [IoEvent.write [97], IoEvent.edit [120], IoEvent.pass, IoEvent.write [98]]) ∧
    (printed_buffers (io_thread_calls (fresh 0 false)
        [IoEvent.write [97], IoEvent.edit [120], IoEvent.pass, IoEvent.write [98]])).length
      ≤ (writes [IoEvent.write [97], IoEvent.edit [120], IoEvent.pass,
          IoEvent.write [98]]).length ∧
    (∀ w ∈ writes [IoEvent.write [97], IoEvent.edit [120], IoEvent.pass, IoEvent.write [98]],
      (0 : Byte) ∉ w → c_str w = w) :=
  writes_printed_in_order (fresh 0 false)
    [IoEvent.write [97], IoEvent.edit [120], IoEvent.pass, IoEvent.write [98]] rfl

/-- C18: the submit of lines 132-140 reads, clears and resets the edit buffer without
holding `m_current_buffer_mutex`, while the inner loop and the output loop hold it for
their accesses; a schedule exists after which the input thread is about to clear the
buffer and the output thread, holding the buffer mutex, is about to read it. -/
theorem submit_accesses_buffer_without_its_mutex :
    buffer_guarded [] append_actions = true ∧
    buffer_guarded [] arrow_actions = true ∧
    buffer_guarded [] io_pass_actions = true ∧
    buffer_guarded [] submit_actions = false ∧
    ∃ t, interleave { input := submit_actions, io := io_pass_actions,
                      input_held := [], io_held := [] }
          [true, true, true, true, true, false, false] = some t ∧
      t.input.head? = some Action.write_buffer ∧
      t.io.head? = some Action.read_buffer ∧
      Mutex.m_current_buffer_mutex ∈ t.io_held ∧
      Mutex.m_current_buffer_mutex ∉ t.input_held :=
  ⟨by decide, by decide, by decide, by decide, _, rfl, rfl, rfl, by decide, by decide⟩

theorem input_thread_main_other (cl : Commandline) (c : Byte) (rest : List Byte)
    (h1 : ¬ (c = 8 ∨ c = 127)) (h2 : isprint c = false) (h3 : c ≠ 0x1b) (h4 : c ≠ 10) :
    input_thread_main cl (c :: rest) = input_thread_main cl rest := by
  rcases rest with _ | ⟨c2, _ | ⟨c3, rest2⟩⟩ <;> simp [input_thread_main, h1, h2, h3, h4]

theorem show_history_entry_defined (st : Commandline)
    (h : st.m_history_index ≤ st.m_history.length) :
    ∃ st1, show_history_entry st = some st1 ∧ st1.m_history = st.m_history ∧
      st1.m_history_index = st.m_history_index := by
  unfold show_history_entry
  split_ifs with he
  · exact ⟨_, rfl, rfl, rfl⟩
  · have hlt : st.m_history_index < st.m_history.length := lt_of_le_of_ne h he
    rw [List.getElem?_eq_getElem hlt]
    exact ⟨_, rfl, rfl, rfl⟩

/-- With a non-empty history whose cursor is within range, `handle_escape_sequence` is
defined, keeps the entries and keeps the cursor within range. -/
theorem handle_escape_sequence_defined (cl : Commandline)
    (hinv : cl.m_history ≠ [] → cl.m_history_index ≤ cl.m_history.length) (c2 c3 : Byte) :
    ∃ cl1, handle_escape_sequence cl c2 c3 = some cl1 ∧
      (cl1.m_history ≠ [] → cl1.m_history_index ≤ cl1.m_history.length) := by
  unfold handle_escape_sequence
  split_ifs with h1 h2 h3
  · obtain ⟨_, hb, _, _⟩ := history_index_in_range_preserved cl (hinv h2.2)
    obtain ⟨st1, e, eh, ei⟩ := show_history_entry_defined _ hb
    refine ⟨st1, e, fun _ => ?_⟩
    rw [eh, ei]
    exact hb
  · obtain ⟨_, _, hf, _⟩ := history_index_in_range_preserved cl (hinv h3.2)
    obtain ⟨st1, e, eh, ei⟩ := show_history_entry_defined _ hf
    refine ⟨st1, e, fun _ => ?_⟩
    rw [eh, ei]
    exact hf
  · exact ⟨cl, rfl, hinv⟩
  · exact ⟨_, rfl, by simpa [add_to_current_buffer] using hinv⟩

/-- The tests of `handle_escape_sequence` followed by the undisturbed rest of the chosen
branch are `handle_escape_sequence`. -/
theorem escape_tests_finish (cl : Commandline) (c2 c3 : Byte) :
    input_finish (escape_tests cl c2 c3).1 (escape_tests cl c2 c3).2
      = handle_escape_sequence cl c2 c3 := by
  unfold escape_tests handle_escape_sequence
  split_ifs <;> rfl

/-- Taking one atomic step and running on undisturbed is running on undisturbed. -/
theorem input_step_finish (p : Pending) (cl : Commandline) :
    (input_step p cl).bind (fun st => input_finish st.1 st.2) = input_finish p cl := by
  cases p <;> simp only [input_step, input_finish, Option.some_bind]
  cases show_history_entry cl <;> rfl

theorem inner_loop_byte_seq (cl : Commandline) (b : Byte) (bs : List Byte) :
    (inner_loop_byte cl b).bind (fun st => (input_finish st.1 st.2).bind
        (fun cl1 => input_thread_main cl1 (pending_bytes st.1 ++ bs)))
      = input_thread_main cl (b :: bs) := by
  unfold inner_loop_byte
  by_cases h1 : b = 8 ∨ b = 127
  · rw [if_pos h1, input_thread_main_backspace cl b bs h1]
    simp [input_finish, pending_bytes]
  · rw [if_neg h1]
    by_cases h2 : isprint b = true
    · rw [if_pos h2, input_thread_main_cons_printable cl b bs h2]
      simp [input_finish, pending_bytes]
    · rw [if_neg h2]
      by_cases h3 : b = 0x1b
      · rw [if_pos h3, h3]
        simp [input_finish, pending_bytes]
      · rw [if_neg h3]
        by_cases h4 : b = 10
        · rw [if_pos h4, h4, input_thread_main_enter]
          cases submit cl <;> simp [input_finish, pending_bytes]
        · rw [if_neg h4, input_thread_main_other cl b bs h1 (by simpa using h2) h3 h4]
          simp [input_finish, pending_bytes]

/-- Fed with bytes only and left undisturbed, the event-by-event input thread is
`input_thread_main`. -/
theorem run_events_keys (bs : List Byte) (p : Pending) (cl : Commandline) :
    (run_events (p, cl) (bs.map Event.key)).bind (fun st => input_finish st.1 st.2)
      = (input_finish p cl).bind
          (fun cl1 => input_thread_main cl1 (pending_bytes p ++ bs)) := by
  induction bs generalizing p cl with
  | nil =>
    cases p <;>
      simp [run_events, input_finish, pending_bytes, input_thread_main, isprint]
  | cons b bs ih =>
    have key : run_events (p, cl) ((b :: bs).map Event.key)
        = (input_byte p cl b).bind (fun st => run_events st (bs.map Event.key)) := by
      simp only [List.map_cons, run_events]
      cases input_byte p cl b <;> rfl
    rw [key, Option.bind_assoc]
    have step : ∀ st : Pending × Commandline,
        (run_events st (bs.map Event.key)).bind (fun st2 => input_finish st2.1 st2.2)
          = (input_finish st.1 st.2).bind
              (fun cl1 => input_thread_main cl1 (pending_bytes st.1 ++ bs)) :=
      fun st => ih st.1 st.2
    simp only [step]
    cases p with
    | reading =>
      simpa [input_byte, input_finish, pending_bytes] using inner_loop_byte_seq cl b bs
    | escape =>
      simp [input_byte, input_finish, pending_bytes]
    | escape2 c2 =>
      have hf : input_finish (Pending.escape2 c2) cl = some cl := rfl
      have hb : pending_bytes (Pending.escape2 c2) ++ b :: bs = 0x1b :: c2 :: b :: bs := rfl
      have hp : pending_bytes (escape_tests cl c2 b).1 = [] := by
        unfold escape_tests
        split_ifs <;> rfl
      simp only [input_byte, Option.some_bind, hf, hb, hp, List.nil_append]
      rw [input_thread_main_escape, ← escape_tests_finish]
      cases input_finish (escape_tests cl c2 b).1 (escape_tests cl c2 b).2 <;> rfl
    | arrow_up =>
      simp only [input_byte, input_finish, pending_bytes, List.nil_append]
      cases show_history_entry (go_back_in_history cl) with
      | none => rfl
      | some cl1 => simpa using inner_loop_byte_seq cl1 b bs
    | arrow_down =>
      simp only [input_byte, input_finish, pending_bytes, List.nil_append]
      cases show_history_entry (go_forward_in_history cl) with
      | none => rfl
      | some cl1 => simpa using inner_loop_byte_seq cl1 b bs
    | lookup =>
      simp only [input_byte, input_finish, pending_bytes, List.nil_append]
      cases show_history_entry cl with
      | none => rfl
      | some cl1 => simpa using inner_loop_byte_seq cl1 b bs

/-- C20: the history lookup of the arrow keys can go out of range. After `a`, Enter, `b`,
Enter and ESC `[` `A` in a fresh object with history enabled the input thread is in the
up-arrow branch with two entries and cursor 2. `go_back_in_history` sets the cursor to 1
and releases the history mutex; `clear_history`, called by the application before the
guard of line 86 is taken, empties the entries; the lookup then reads `entries[1]` of an
empty history. Left undisturbed, the same lookup is in range. -/
theorem clear_history_before_lookup :
    ∃ st st1, run_events (Pending.reading, fresh 5 true)
        [Event.key 97, Event.key 10, Event.key 98, Event.key 10,
         Event.key 0x1b, Event.key 91, Event.key 65] = some (Pending.arrow_up, st) ∧
      st.m_history = [[97], [98]] ∧ st.m_history_index = 2 ∧
      run_events (Pending.arrow_up, st) [Event.step, Event.clear_history]
        = some (Pending.lookup, st1) ∧
      st1.m_history_index = 1 ∧ st1.m_history.length = 0 ∧
      st1.m_history_index ≠ st1.m_history.length ∧
      ¬ st1.m_history_index < st1.m_history.length ∧
      show_history_entry st1 = none ∧
      run_events (Pending.arrow_up, st) [Event.step, Event.clear_history, Event.step] = none ∧
      (run_events (Pending.arrow_up, st) [Event.step, Event.step]).isSome = true :=
  ⟨_, _, rfl, rfl, rfl, rfl, rfl, rfl, by decide, by decide, rfl, rfl, rfl⟩

end Commandline
